import Mathlib

/-!
# Verification of the QodeVault retrieval-and-fusion pipeline

Shallow embedding of the algorithmic core of the repository:

* `src/database.py` — query tokenization (`_tokenize_query`) and
  reciprocal-rank fusion (`_rrf_fuse`);
* `src/parser.py` — line windowing (`chunk_by_lines`), graceful parse
  failure (`CodeParser.parse`, `run`);
* `src/ingest.py` — stable point identifiers (`_stable_point_id`) and
  point construction (`run_ingest`).

Python floats are modelled by exact rationals (`ℚ`); Python `dict`s
(insertion-ordered, update-in-place) by association lists with
update-in-place / append-if-fresh semantics; Python's stable `sorted`
by a stable insertion sort.
-/

namespace QodeVault

/-! ## Tokenizer: `_tokenize_query` (src/database.py lines 20-29)

The regex is `[A-Za-z_][A-Za-z0-9_.∕-]{1,}` applied with `re.findall`
(left-to-right, non-overlapping, greedy). -/

/-- First character class `[A-Za-z_]` of the token regex. -/
def isStartChar (c : Char) : Bool :=
  c.isAlpha || c = '_'

/-- Continuation character class `[A-Za-z0-9_.∕-]`, i.e. `[A-Za-z0-9_.∕-]`. -/
def isContChar (c : Char) : Bool :=
  c.isAlpha || c.isDigit || c = '_' || c = '.' || c = '/' || c = '-'

/-- Model of `re.findall(r"[A-Za-z_][A-Za-z0-9_.∕-]{1,}", q)` over the characters of
`q`: scan left to right; at a position whose character is in the start class
and is followed by at least one continuation character, emit the greedy
match and resume after it; otherwise advance one character. -/
def findTokensAux : ℕ → List Char → List String
  | 0, _ => []
  | _ + 1, [] => []
  | fuel + 1, c :: rest =>
    if isStartChar c then
      let cont := rest.takeWhile isContChar
      if cont.length ≥ 1 then
        String.mk (c :: cont) :: findTokensAux fuel (rest.dropWhile isContChar)
      else
        findTokensAux fuel rest
    else
      findTokensAux fuel rest

/-- The regex scan proper. The fuel `l.length` only bounds the recursion
(each step consumes at least one character, so it never runs out); it makes
the definition structurally recursive and hence kernel-computable. -/
def findTokens (l : List Char) : List String := findTokensAux l.length l

/-- The dedup loop of `_tokenize_query`: `seen` holds the lowercased forms
already emitted; a token whose lowercase is in `seen` is dropped, otherwise
it is emitted with its original casing. -/
def dedupeCI : List String → List String → List String
  | [], _ => []
  | t :: rest, seen =>
    if t.toLower ∈ seen then dedupeCI rest seen
    else t :: dedupeCI rest (t.toLower :: seen)

/-- Model of `_tokenize_query` from src/database.py: regex findall, case-insensitive
dedup preserving first-seen casing and order, cap at 8 tokens. -/
def tokenize_query (q : String) : List String :=
  (dedupeCI (findTokens q.data) []).take 8

/-! ## Reciprocal-rank fusion: `_rrf_fuse` (src/database.py lines 164-184) -/

/-- Constant `RRF_K` from src/config.py (line 31): default of the `RRF_K` env var. -/
def RRF_K : ℤ := 60

/-- A `ScoredPoint` as consumed by `_rrf_fuse`: only the id and the payload
matter to fusion (the input `score` field is ignored by the code). The
payload`Dict[str, Any]` is an arbitrary type `P`; an absent payload is
`none`. -/
structure ScoredPoint (P : Type) where
  id : String
  score : ℚ
  payload : Option P
deriving Repr, DecidableEq

/-- Lookup in an insertion-ordered Python dict modelled as an association
list. -/
def dictGet {V : Type} : List (String × V) → String → Option V
  | [], _ => none
  | (k, v) :: rest, key => if k = key then some v else dictGet rest key

/-- Lookup with default: `d.get(key, dflt)`. -/
def dictGetD {V : Type} (d : List (String × V)) (key : String) (dflt : V) : V :=
  (dictGet d key).getD dflt

/-- Assignment `d[key] = v` on an insertion-ordered dict: update in place if the key is
present, else append (insertion order of first encounter is preserved). -/
def dictSet {V : Type} : List (String × V) → String → V → List (String × V)
  | [], key, v => [(key, v)]
  | (k, w) :: rest, key, v =>
    if k = key then (k, v) :: rest else (k, w) :: dictSet rest key v

/-- The inner `add(results)` loop of `_rrf_fuse`: for `rank, sp` in
`enumerate(results, start=rank)`, add `1/(k+rank)` to `scores[str(sp.id)]`
(default 0) and, when the payload is not `None`, overwrite
`payloads[str(sp.id)]` with it. -/
def addLeg {P : Type} (k : ℤ) :
    List (ScoredPoint P) → ℕ → List (String × ℚ) → List (String × P) →
      List (String × ℚ) × List (String × P)
  | [], _, scores, payloads => (scores, payloads)
  | sp :: rest, rank, scores, payloads =>
    let scores' := dictSet scores sp.id (dictGetD scores sp.id 0 + 1 / ((k : ℚ) + rank))
    let payloads' := match sp.payload with
      | some p => dictSet payloads sp.id p
      | none => payloads
    addLeg k rest (rank + 1) scores' payloads'

/-- Stable insertion (descending by score): the inserted element goes before
the first element whose score it is `≥`, hence before all later-inserted
elements of equal score — the placement Python's stable
`sorted(..., reverse=True)` gives to an earlier list element. -/
def insertDesc (x : String × ℚ) : List (String × ℚ) → List (String × ℚ)
  | [] => [x]
  | y :: ys => if x.2 ≥ y.2 then x :: y :: ys else y :: insertDesc x ys

/-- Stable sort, descending by score; agrees with Python's stable
`sorted(scores.items(), key=lambda x: x[1], reverse=True)` on every input
(stable sorts by the same key are extensionally unique). -/
def sortDesc : List (String × ℚ) → List (String × ℚ)
  | [] => []
  | x :: xs => insertDesc x (sortDesc xs)

/-- Model of `_rrf_fuse` from src/database.py (lines 164-184): add the dense leg then
the keyword leg into the score and payload dicts (both with
`enumerate(..., start=1)`), sort by score descending (stably), and attach to
each id its recorded payload (`payloads.get(pid, {})`; the absent-payload
default `{}` is modelled by `none`). -/
def rrf_fuse {P : Type} (dense keyword : List (ScoredPoint P)) (k : ℤ) :
    List (String × ℚ × Option P) :=
  let st1 := addLeg k dense 1 [] []
  let st2 := addLeg k keyword 1 st1.1 st1.2
  (sortDesc st2.1).map (fun e => (e.1, e.2, dictGet st2.2 e.1))

/-- The score dict produced by `_rrf_fuse` before sorting. -/
def rrfScores {P : Type} (dense keyword : List (ScoredPoint P)) (k : ℤ) :
    List (String × ℚ) :=
  (addLeg k keyword 1 (addLeg k dense 1 [] []).1 (addLeg k dense 1 [] []).2).1

/-- The contribution of one leg to a record's fused score: `1/(k + r)` for
1-based rank `r` when the id occurs in the leg, `0` when absent. -/
def contrib {P : Type} (k : ℤ) (leg : List (ScoredPoint P)) (pid : String) : ℚ :=
  match leg.findIdx? (fun sp => sp.id = pid) with
  | some i => 1 / ((k : ℚ) + (i + 1 : ℕ))
  | none => 0

/-- The score list the `add` loop builds from an empty dict over a leg with
pairwise-distinct ids: one entry per point, in leg order, scored `1/(k+r)`. -/
def legScores {P : Type} (k : ℤ) : List (ScoredPoint P) → ℕ → List (String × ℚ)
  | [], _ => []
  | sp :: rest, rank => (sp.id, 1 / ((k : ℚ) + rank)) :: legScores k rest (rank + 1)

/-- The dense leg of the spec's worked RRF example: record A at rank 1,
record B at rank 2. -/
def exDense : List (ScoredPoint Unit) :=
  [{ id := "A", score := 1, payload := none }, { id := "B", score := 1, payload := none }]

/-- The keyword leg of the spec's worked RRF example: record A at rank 3,
record B absent. -/
def exKeyword : List (ScoredPoint Unit) :=
  [{ id := "C", score := 1, payload := none }, { id := "D", score := 1, payload := none },
   { id := "A", score := 1, payload := none }]

/-! ## Line windowing: `chunk_by_lines` (src/parser.py lines 72-92)

The Python function takes the file text and calls `text.splitlines()`; we
embed the loop over the resulting line list directly, so the input here is
the list of lines. `step = max(1, chunk_lines - overlap)` with Python ints
is matched by `max 1 (chunk_lines - overlap)` on `ℕ` (truncated subtraction
hits `max`'s left arm exactly when the Python difference is `≤ 0`). -/

/-- The `while start < n` loop of `chunk_by_lines`: emit
`(start+1, min n (start+chunk_lines), joined slice)`, stop when the window
reaches the last line, else advance `start` by `max 1 (chunk_lines -
overlap)`. -/
def chunkFromAux (lines : List String) (chunk_lines overlap : ℕ) :
    ℕ → ℕ → List (ℕ × ℕ × String)
  | 0, _ => []
  | fuel + 1, start =>
    if start < lines.length then
      let e := min lines.length (start + chunk_lines)
      let txt := String.intercalate "\n" ((lines.drop start).take (e - start))
      if e = lines.length then
        [(start + 1, e, txt)]
      else
        (start + 1, e, txt) :: chunkFromAux lines chunk_lines overlap fuel
          (start + max 1 (chunk_lines - overlap))
    else []

/-- The loop with the fuel instantiated: `lines.length - start` bounds the
number of iterations (each one advances `start` by at least 1 while the
guard `start < lines.length` holds), so the fuel never runs out; it makes
the loop structurally recursive and hence kernel-computable. -/
def chunkFrom (lines : List String) (chunk_lines overlap : ℕ) (start : ℕ) :
    List (ℕ × ℕ × String) :=
  chunkFromAux lines chunk_lines overlap (lines.length - start) start

/-- Model of `chunk_by_lines` from src/parser.py: 1-based inclusive line windows of
the given line list. (The `n == 0` early return coincides with the loop
guard failing at `start = 0`.) -/
def chunk_by_lines (lines : List String) (chunk_lines overlap : ℕ) :
    List (ℕ × ℕ × String) :=
  chunkFrom lines chunk_lines overlap 0

/-- Number of lines shared by two 1-based inclusive line ranges. -/
def sharedLines (w w' : ℕ × ℕ) : ℕ :=
  min w.2 w'.2 + 1 - max w.1 w'.1

/-- Default of `CHUNK_LINES` from src/parser.py line 21. -/
def CHUNK_LINES : ℕ := 200

/-- Default of `CHUNK_OVERLAP` from src/parser.py line 22. -/
def CHUNK_OVERLAP : ℕ := 40

/-! ## Parser items and the extraction run (src/parser.py lines 114-316) -/

/-- The dict emitted per syntactic unit or file chunk (`class_data` /
`fn_data` in `CodeParser`, and the `FileChunk` dicts built in `run`). -/
structure Item where
  type : String
  name : String
  symbol : String
  start_line : ℕ
  end_line : ℕ
  docstring : String
  code : String
  preceding_comments : List String
  language : String
deriving Repr, DecidableEq

/-- What `self.visit(tree)` accumulates when `ast.parse` succeeds: the
visitor's `items`, `imports` and `global_variables`. The Python AST library
is external to the repository, so the outcome of `ast.parse` + visiting is
an input of the embedding. -/
structure AstVisit where
  items : List Item
  imports : List String
  global_variables : List String
deriving Repr, DecidableEq

/-- Result dict of `CodeParser.parse` (src/parser.py lines 204-223). -/
structure AstResult where
  items : List Item
  imports : List String
  global_variables : List String
  syntax_error : Option String
deriving Repr, DecidableEq

/-- Model of `CodeParser.parse` (src/parser.py lines 204-223): on a `SyntaxError`
with message `msg`, return empty items/imports/global_variables and record
the error; on success return the visitor's accumulations and no error. -/
def CodeParser_parse (outcome : Except String AstVisit) : AstResult :=
  match outcome with
  | .error msg => { items := [], imports := [], global_variables := [], syntax_error := some msg }
  | .ok v => { items := v.items, imports := v.imports, global_variables := v.global_variables,
               syntax_error := none }

/-- Per-file input to the `run` loop: `safe_read_text` returned `None`
(unreadable / too large), or the file's lines together with the external
parse outcome for its content. -/
inductive FileInput where
  | unreadable : FileInput
  | readable (lines : List String) (outcome : Except String AstVisit) : FileInput
deriving Repr

/-- The per-file entry stored into `parsed[rel_path]` by `run`
(src/parser.py lines 251-295). -/
structure FileEntry where
  ast_items : List Item
  file_chunks : List Item
  imports : List String
  global_variables : List String
  syntax_error : Option String
deriving Repr, DecidableEq

/-- The `FileChunk` dict built in `run` for one window (src/parser.py lines
276-287). -/
def mkFileChunk (rel_path : String) (c : ℕ × ℕ × String) : Item :=
  { type := "FileChunk"
  , name := rel_path ++ "::chunk_" ++ toString c.1 ++ "_" ++ toString c.2.1
  , symbol := ""
  , start_line := c.1
  , end_line := c.2.1
  , docstring := ""
  , code := c.2.2
  , preceding_comments := []
  , language := "python" }

/-- The body of the `for fp in py_files` loop of `run` for one file:
unreadable files get the skip entry and `continue`; readable files get the
AST result (recorded) plus the always-run windowing pass. -/
def processFile (rel_path : String) : FileInput → FileEntry
  | .unreadable =>
      { ast_items := [], file_chunks := [], imports := [], global_variables := []
      , syntax_error := some "SKIPPED: unreadable or too large" }
  | .readable lines outcome =>
      let ast := CodeParser_parse outcome
      { ast_items := ast.items
      , file_chunks := (chunk_by_lines lines CHUNK_LINES CHUNK_OVERLAP).map (mkFileChunk rel_path)
      , imports := ast.imports
      , global_variables := ast.global_variables
      , syntax_error := ast.syntax_error }

/-- The `run` loop over all files: builds the `parsed` mapping (insertion
order) and the `syntax_errors` list. A file is appended to `syntax_errors`
only when it was readable and its AST result records an error (the
unreadable branch `continue`s before that check). -/
def runFiles : List (String × FileInput) → List (String × FileEntry) × List (String × String)
  | [] => ([], [])
  | (fp, inp) :: rest =>
    let entry := processFile fp inp
    let (parsed, errs) := runFiles rest
    match inp with
    | .unreadable => ((fp, entry) :: parsed, errs)
    | .readable _ _ =>
      match entry.syntax_error with
      | some m => ((fp, entry) :: parsed, (fp, m) :: errs)
      | none => ((fp, entry) :: parsed, errs)

/-! ## Ingestion: `_stable_point_id` and `run_ingest` (src/ingest.py) -/

/-- The decimal digit character of `d` (`0 ≤ d < 10`). -/
def digitChar (d : ℕ) : Char := Char.ofNat (48 + d)

/-- Little-endian decimal digits, with fuel making the division recursion
structural. -/
def natDigitsRevAux : ℕ → ℕ → List Char
  | 0, _ => []
  | fuel + 1, n =>
    if n < 10 then [digitChar n]
    else digitChar (n % 10) :: natDigitsRevAux fuel (n / 10)

/-- Little-endian decimal digits of `n`, as characters. The fuel `n + 1`
strictly bounds the number of divisions by 10, so it never runs out. -/
def natDigitsRev (n : ℕ) : List Char := natDigitsRevAux (n + 1) n

/-- Model of Python `str(n)` for a natural number (and of the f-string
interpolation `{start}` / `{end}` in `_stable_point_id`): standard decimal
rendering, most significant digit first. -/
def natToString (n : ℕ) : String := String.mk (natDigitsRev n).reverse

/-- The composite key string `f"{file_path}::{typ}::{symbol}::{name}::{start}-{end}"`
of `_stable_point_id` (src/ingest.py lines 130-140), with the code's
defaults already materialised by the `Item` structure (parser items always
carry every field). `_stable_point_id` returns
`str(uuid.uuid5(uuid.NAMESPACE_URL, key))`; UUIDv5 under a fixed namespace
is a fixed deterministic function of the key string, so the identifier is
modelled by the key itself — byte-identity and change-propagation of the
identifier are exactly those of the key. -/
def stable_point_key (file_path : String) (item : Item) : String :=
  file_path ++ "::" ++ item.type ++ "::" ++ item.symbol ++ "::" ++ item.name ++ "::"
    ++ natToString item.start_line ++ "-" ++ natToString item.end_line

/-- Python whitespace for `str.strip()` (the ASCII whitespace characters:
space, tab, newline, carriage return, vertical tab, form feed). -/
def isPySpace (c : Char) : Bool :=
  c = ' ' || c = '\t' || c = '\n' || c = '\r' || c = '\x0b' || c = '\x0c'

/-- Python `s.strip()`: drop leading and trailing whitespace. -/
def pyStrip (s : String) : String :=
  String.mk (((s.data.dropWhile isPySpace).reverse.dropWhile isPySpace).reverse)

/-- The payload dict built for each point by `run_ingest`
(src/ingest.py lines 185-204). -/
structure Payload where
  file : String
  name : String
  symbol : String
  type : String
  language : String
  start_line : ℕ
  end_line : ℕ
  docstring : String
  preceding_comments : List String
  code : String
  repo_root : String
deriving Repr, DecidableEq

/-- A `PointStruct` as built by `run_ingest`; the dense vector type `V` is
abstract (the embedding model is an external service). -/
structure Point (V : Type) where
  id : String
  vector : V
  payload : Payload
deriving Repr

/-- The body of the item loop of `run_ingest` (src/ingest.py lines 175-213)
for one item: strip the code text; yield no point when it is empty,
otherwise the point with the stable id, the dense embedding of the stripped
text, and the payload whose `code` field is the stripped text.
`int(item.get("start_line", 1) or 1)` maps `0` to `1` (Python `0 or 1`);
similarly for `end_line`. -/
def itemPoint {V : Type} (embed : String → V) (repo_root file_path : String)
    (item : Item) : Option (Point V) :=
  let code_text := pyStrip item.code
  if code_text = "" then none
  else some
    { id := stable_point_key file_path item
    , vector := embed code_text
    , payload :=
      { file := file_path
      , name := item.name
      , symbol := item.symbol
      , type := item.type
      , language := item.language
      , start_line := if item.start_line = 0 then 1 else item.start_line
      , end_line := if item.end_line = 0 then 1 else item.end_line
      , docstring := item.docstring
      , preceding_comments := item.preceding_comments
      , code := code_text
      , repo_root := repo_root } }

/-- The point-building loop of `run_ingest`: for each file, iterate
`ast_items + file_chunks` and keep the points of the non-blank items. -/
def build_points {V : Type} (embed : String → V) (repo_root : String)
    (parsed_code : List (String × FileEntry)) : List (Point V) :=
  parsed_code.flatMap (fun fe =>
    (fe.2.ast_items ++ fe.2.file_chunks).filterMap (itemPoint embed repo_root fe.1))

/-! ## Lemmas about the tokenizer -/

/-- Every string emitted by the regex scan is a start-class character
followed by one or more continuation-class characters (the greedy
`{1,}` repetition). -/
theorem findTokensAux_shape : ∀ (fuel : ℕ) (l : List Char) (t : String),
    t ∈ findTokensAux fuel l →
    ∃ c cs, t = String.mk (c :: cs) ∧ isStartChar c = true ∧ cs ≠ [] ∧
      ∀ c' ∈ cs, isContChar c' = true := by
  intro fuel
  induction fuel with
  | zero => intro l t ht; simp [findTokensAux] at ht
  | succ fuel ih =>
    intro l t ht
    match l with
    | [] => simp [findTokensAux] at ht
    | c :: rest =>
      simp only [findTokensAux] at ht
      by_cases hs : isStartChar c
      · rw [if_pos hs] at ht
        by_cases hl : (rest.takeWhile isContChar).length ≥ 1
        · rw [if_pos hl] at ht
          rcases List.mem_cons.mp ht with h | h
          · refine ⟨c, rest.takeWhile isContChar, h, hs, ?_, ?_⟩
            · intro hnil
              rw [hnil] at hl
              simp at hl
            · intro c' hc'
              exact List.mem_takeWhile_imp hc'
          · exact ih _ _ h
        · rw [if_neg hl] at ht
          exact ih _ _ ht
      · rw [if_neg hs] at ht
        exact ih _ _ ht

/-- Every string emitted by the regex scan is a start-class character
followed by one or more continuation-class characters (the greedy
`{1,}` repetition). -/
theorem findTokens_shape {l : List Char} {t : String} (ht : t ∈ findTokens l) :
    ∃ c cs, t = String.mk (c :: cs) ∧ isStartChar c = true ∧ cs ≠ [] ∧
      ∀ c' ∈ cs, isContChar c' = true :=
  findTokensAux_shape l.length l t ht

/-- The dedup loop emits a subsequence of its input. -/
theorem dedupeCI_sublist : ∀ (l seen : List String), (dedupeCI l seen).Sublist l := by
  intro l
  induction l with
  | nil => intro seen; simp [dedupeCI]
  | cons t rest ih =>
    intro seen
    rw [dedupeCI]
    split
    · exact (ih seen).trans (List.sublist_cons_self t rest)
    · exact (ih (t.toLower :: seen)).cons₂ t

/-- Every token the dedup loop emits has a lowercase form outside `seen`,
and is the first element of the input whose lowercase form matches its own. -/
theorem dedupeCI_first : ∀ (l seen : List String) (t : String), t ∈ dedupeCI l seen →
    t.toLower ∉ seen ∧ l.find? (fun u => u.toLower == t.toLower) = some t := by
  intro l
  induction l with
  | nil => intro seen t ht; simp [dedupeCI] at ht
  | cons h rest ih =>
    intro seen t ht
    rw [dedupeCI] at ht
    by_cases hmem : h.toLower ∈ seen
    · rw [if_pos hmem] at ht
      obtain ⟨hns, hfind⟩ := ih seen t ht
      have hne : h.toLower ≠ t.toLower := fun he => hns (he ▸ hmem)
      refine ⟨hns, ?_⟩
      rw [List.find?_cons_of_neg, hfind]
      simpa using hne
    · rw [if_neg hmem] at ht
      rcases List.mem_cons.mp ht with rfl | hmem2
      · refine ⟨hmem, ?_⟩
        rw [List.find?_cons_of_pos]
        simp
      · obtain ⟨hns, hfind⟩ := ih (h.toLower :: seen) t hmem2
        have hne : h.toLower ≠ t.toLower := by
          intro he
          exact hns (by simp [he])
        refine ⟨fun hc => hns (List.mem_cons_of_mem _ hc), ?_⟩
        rw [List.find?_cons_of_neg, hfind]
        simpa using hne

/-- The dedup loop's output is pairwise distinct case-insensitively. -/
theorem dedupeCI_pairwise : ∀ (l seen : List String),
    (dedupeCI l seen).Pairwise (fun a b => a.toLower ≠ b.toLower) := by
  intro l
  induction l with
  | nil => intro seen; simp [dedupeCI]
  | cons h rest ih =>
    intro seen
    rw [dedupeCI]
    split
    · exact ih seen
    · refine List.Pairwise.cons ?_ (ih _)
      intro b hb
      have := (dedupeCI_first rest (h.toLower :: seen) b hb).1
      intro he
      exact this (by simp [he])

/-- C2 (counterexample): the claim requires every emitted token to have two
or more characters after its first one (length ≥ 3), but the query `"ab"`
emits the token `"ab"` of length 2 — the regex repetition is `{1,}` (one or
more), not two or more. -/
theorem C2_counterexample :
    tokenize_query "ab" = ["ab"] ∧ ¬ (3 ≤ ("ab" : String).length) := by
  decide

/-- C2 (amended): every token emitted by the query tokenizer is a letter or
underscore followed by ONE or more characters drawn from letters, digits,
underscore, dot, slash, or hyphen; hence every emitted token has length at
least 2. -/
theorem C2_token_shape (q t : String) (ht : t ∈ tokenize_query q) :
    2 ≤ t.length ∧ ∃ c cs, t.data = c :: cs ∧ isStartChar c = true ∧ cs ≠ [] ∧
      ∀ c' ∈ cs, isContChar c' = true := by
  have h1 : t ∈ dedupeCI (findTokens q.data) [] := List.mem_of_mem_take ht
  have hmem : t ∈ findTokens q.data := (dedupeCI_sublist _ _).subset h1
  obtain ⟨c, cs, heq, hc, hcs, hall⟩ := findTokens_shape hmem
  have hdata : t.data = c :: cs := by rw [heq]
  refine ⟨?_, c, cs, hdata, hc, hcs, hall⟩
  have hlen : t.length = (c :: cs).length := by
    rw [← hdata]
    rfl
  rcases cs with _ | ⟨c', cs'⟩
  · exact absurd rfl hcs
  · rw [hlen]
    simp [List.length_cons]

/-- C2 (witness): the amended shape at the concrete query `"foo.bar"`. -/
theorem C2_token_shape_witness :
    ("foo.bar" ∈ tokenize_query "foo.bar") ∧
      (2 ≤ ("foo.bar" : String).length ∧ ∃ c cs, ("foo.bar" : String).data = c :: cs ∧
        isStartChar c = true ∧ cs ≠ [] ∧ ∀ c' ∈ cs, isContChar c' = true) :=
  ⟨by decide, C2_token_shape "foo.bar" "foo.bar" (by decide)⟩

/-- C3: the token list returned by the query tokenizer has length at most 8,
contains no two case-insensitively equal tokens, and preserves the
first-seen original casing and first-seen order of the tokens found in the
query: it is a subsequence of the regex scan's output in which every emitted
token is the first scan token with its lowercase form. -/
theorem C3_cap_dedup_order (q : String) :
    (tokenize_query q).length ≤ 8 ∧
    (tokenize_query q).Pairwise (fun a b => a.toLower ≠ b.toLower) ∧
    (tokenize_query q).Sublist (findTokens q.data) ∧
    ∀ t ∈ tokenize_query q,
      (findTokens q.data).find? (fun u => u.toLower == t.toLower) = some t := by
  refine ⟨List.length_take_le 8 _, ?_, ?_, ?_⟩
  · exact (dedupeCI_pairwise _ _).sublist (List.take_sublist _ _)
  · exact (List.take_sublist _ _).trans (dedupeCI_sublist _ _)
  · intro t ht
    exact (dedupeCI_first _ _ t (List.mem_of_mem_take ht)).2

/-- C3 (witness): the first-seen-casing property at a concrete query with a
case-insensitive duplicate. -/
theorem C3_cap_dedup_order_witness :
    ("Foo" ∈ tokenize_query "Foo foo bar") ∧
      (findTokens ("Foo foo bar" : String).data).find?
        (fun u => u.toLower == ("Foo" : String).toLower) = some "Foo" :=
  ⟨by decide, (C3_cap_dedup_order "Foo foo bar").2.2.2 "Foo" (by decide)⟩

/-! ## Lemmas about dicts, `addLeg` and the stable sort -/

theorem dictGet_dictSet_self {V : Type} (d : List (String × V)) (key : String) (v : V) :
    dictGet (dictSet d key v) key = some v := by
  induction d with
  | nil => simp [dictSet, dictGet]
  | cons hd rest ih =>
    obtain ⟨k', w⟩ := hd
    rw [dictSet]
    by_cases he : k' = key
    · rw [if_pos he, dictGet, if_pos he]
    · rw [if_neg he, dictGet, if_neg he]
      exact ih

theorem dictGet_dictSet_ne {V : Type} (d : List (String × V)) (key key2 : String) (v : V)
    (hne : key ≠ key2) : dictGet (dictSet d key v) key2 = dictGet d key2 := by
  induction d with
  | nil => simp [dictSet, dictGet, hne]
  | cons hd rest ih =>
    obtain ⟨k', w⟩ := hd
    rw [dictSet]
    by_cases he : k' = key
    · subst he
      rw [if_pos rfl, dictGet, dictGet, if_neg hne, if_neg hne]
    · rw [if_neg he, dictGet, dictGet]
      by_cases he2 : k' = key2
      · rw [if_pos he2, if_pos he2]
      · rw [if_neg he2, if_neg he2]
        exact ih

theorem dictSet_fresh {V : Type} (d : List (String × V)) (key : String) (v : V)
    (h : dictGet d key = none) : dictSet d key v = d ++ [(key, v)] := by
  induction d with
  | nil => simp [dictSet]
  | cons hd rest ih =>
    obtain ⟨k', w⟩ := hd
    rw [dictGet] at h
    by_cases he : k' = key
    · rw [if_pos he] at h
      exact absurd h (by simp)
    · rw [if_neg he] at h
      rw [dictSet, if_neg he, List.cons_append, ih h]

theorem dictGet_append_of_none {V : Type} (d1 d2 : List (String × V)) (key : String)
    (h : dictGet d1 key = none) : dictGet (d1 ++ d2) key = dictGet d2 key := by
  induction d1 with
  | nil => simp
  | cons hd rest ih =>
    obtain ⟨k', w⟩ := hd
    rw [dictGet] at h
    by_cases he : k' = key
    · rw [if_pos he] at h
      exact absurd h (by simp)
    · rw [if_neg he] at h
      rw [List.cons_append, dictGet, if_neg he]
      exact ih h

theorem dictGet_eq_some_mem {V : Type} {d : List (String × V)} {key : String} {v : V}
    (h : dictGet d key = some v) : (key, v) ∈ d := by
  induction d with
  | nil => simp [dictGet] at h
  | cons hd rest ih =>
    obtain ⟨k', w⟩ := hd
    rw [dictGet] at h
    by_cases he : k' = key
    · rw [if_pos he] at h
      subst he
      obtain rfl : w = v := by simpa using h
      exact List.mem_cons_self _ _
    · rw [if_neg he] at h
      exact List.mem_cons_of_mem _ (ih h)

/-- Score accounting of the `add` loop: with pairwise-distinct ids in the
leg, the final score of `pid` is its previous score plus `1/(k + r)` where
`r` is the rank `pid` is enumerated at (`rank` for the head, counting up),
or plus nothing when `pid` is absent from the leg. -/
theorem addLeg_scores_getD {P : Type} (k : ℤ) :
    ∀ (leg : List (ScoredPoint P)) (rank : ℕ) (scores : List (String × ℚ))
      (payloads : List (String × P)) (pid : String),
      (leg.map ScoredPoint.id).Nodup →
      dictGetD (addLeg k leg rank scores payloads).1 pid 0 =
        dictGetD scores pid 0 +
          (match leg.findIdx? (fun sp => sp.id = pid) rank with
           | some i => 1 / ((k : ℚ) + i)
           | none => 0) := by
  intro leg
  induction leg with
  | nil => intro rank scores payloads pid _; simp [addLeg]
  | cons sp rest ih =>
    intro rank scores payloads pid hn
    rw [List.map_cons, List.nodup_cons] at hn
    obtain ⟨hnotin, hn'⟩ := hn
    rw [addLeg]
    by_cases hpid : sp.id = pid
    · have hnone : rest.findIdx? (fun x => x.id = pid) (rank + 1) = none := by
        rw [List.findIdx?_start_succ, Option.map_eq_none', List.findIdx?_eq_none_iff]
        intro x hx
        simp only [decide_eq_false_iff_not]
        intro hxe
        exact hnotin (hpid ▸ hxe ▸ List.mem_map_of_mem ScoredPoint.id hx)
      rw [ih (rank + 1) _ _ pid hn', hnone]
      rw [List.findIdx?_cons, if_pos (by simp [hpid])]
      subst hpid
      rw [dictGetD, dictGet_dictSet_self]
      simp [dictGetD]
    · have hgd : dictGetD (dictSet scores sp.id (dictGetD scores sp.id 0 + 1 / ((k : ℚ) + rank)))
          pid 0 = dictGetD scores pid 0 := by
        rw [dictGetD, dictGet_dictSet_ne _ _ _ _ hpid, dictGetD]
      rw [ih (rank + 1) _ _ pid hn', hgd]
      rw [List.findIdx?_cons, if_neg (by simp [hpid])]

/-- Payload accounting of the `add` loop: with pairwise-distinct ids in the
leg, the payload recorded for `pid` afterwards is the one carried by `pid`'s
entry in the leg when that entry has one, and the previously recorded one
otherwise (in particular the loop OVERWRITES any previous record). -/
theorem addLeg_payloads_get {P : Type} (k : ℤ) :
    ∀ (leg : List (ScoredPoint P)) (rank : ℕ) (scores : List (String × ℚ))
      (payloads : List (String × P)) (pid : String),
      (leg.map ScoredPoint.id).Nodup →
      dictGet (addLeg k leg rank scores payloads).2 pid =
        (match leg.find? (fun sp => sp.id = pid) with
         | some sp =>
           match sp.payload with
           | some p => some p
           | none => dictGet payloads pid
         | none => dictGet payloads pid) := by
  intro leg
  induction leg with
  | nil => intro rank scores payloads pid _; simp [addLeg]
  | cons sp rest ih =>
    intro rank scores payloads pid hn
    rw [List.map_cons, List.nodup_cons] at hn
    obtain ⟨hnotin, hn'⟩ := hn
    by_cases hpid : sp.id = pid
    · have hnone : rest.find? (fun x => x.id = pid) = none := by
        rw [List.find?_eq_none]
        intro x hx
        simp only [decide_eq_true_eq]
        intro hxe
        exact hnotin (hpid ▸ hxe ▸ List.mem_map_of_mem ScoredPoint.id hx)
      subst hpid
      rw [List.find?_cons_of_pos _ (by simp)]
      cases hp : sp.payload with
      | some p =>
        rw [addLeg, hp, ih (rank + 1) _ _ sp.id hn', hnone]
        simp [hp, dictGet_dictSet_self]
      | none =>
        rw [addLeg, hp, ih (rank + 1) _ _ sp.id hn', hnone]
        simp [hp]
    · rw [List.find?_cons_of_neg _ (by simp [hpid])]
      cases hp : sp.payload with
      | some p =>
        rw [addLeg, hp, ih (rank + 1) _ _ pid hn']
        simp [dictGet_dictSet_ne _ _ _ _ hpid]
      | none =>
        rw [addLeg, hp, ih (rank + 1) _ _ pid hn']

/-- The `add` loop never deletes a score key, and adds the keys of the leg. -/
theorem addLeg_scores_isSome {P : Type} (k : ℤ) :
    ∀ (leg : List (ScoredPoint P)) (rank : ℕ) (scores : List (String × ℚ))
      (payloads : List (String × P)) (pid : String),
      ((dictGet scores pid).isSome ∨ pid ∈ leg.map ScoredPoint.id) →
      (dictGet (addLeg k leg rank scores payloads).1 pid).isSome := by
  intro leg
  induction leg with
  | nil =>
    intro rank scores payloads pid h
    rcases h with h | h
    · exact h
    · simp at h
  | cons sp rest ih =>
    intro rank scores payloads pid h
    rw [addLeg]
    by_cases hpid : sp.id = pid
    · refine ih (rank + 1) _ _ pid (Or.inl ?_)
      subst hpid
      rw [dictGet_dictSet_self]
      rfl
    · refine ih (rank + 1) _ _ pid ?_
      rcases h with h | h
      · exact Or.inl (by rw [dictGet_dictSet_ne _ _ _ _ hpid]; exact h)
      · rw [List.map_cons, List.mem_cons] at h
        rcases h with h | h
        · exact absurd h.symm hpid
        · exact Or.inr h

theorem insertDesc_perm (x : String × ℚ) (l : List (String × ℚ)) :
    (insertDesc x l).Perm (x :: l) := by
  induction l with
  | nil => rfl
  | cons y ys ih =>
    rw [insertDesc]
    by_cases h : x.2 ≥ y.2
    · rw [if_pos h]
    · rw [if_neg h]
      exact (ih.cons y).trans (List.Perm.swap x y ys)

theorem sortDesc_perm (l : List (String × ℚ)) : (sortDesc l).Perm l := by
  induction l with
  | nil => rfl
  | cons x xs ih =>
    rw [sortDesc]
    exact (insertDesc_perm x (sortDesc xs)).trans (ih.cons x)

/-- A list already strictly descending in score is a fixed point of the
stable sort. -/
theorem sortDesc_eq_self {l : List (String × ℚ)}
    (h : l.Pairwise (fun a b => a.2 > b.2)) : sortDesc l = l := by
  induction l with
  | nil => rfl
  | cons x xs ih =>
    rw [List.pairwise_cons] at h
    obtain ⟨hx, hxs⟩ := h
    rw [sortDesc, ih hxs]
    cases xs with
    | nil => rfl
    | cons y ys =>
      rw [insertDesc, if_pos (le_of_lt (hx y (List.mem_cons_self _ _)))]

theorem addLeg_fresh {P : Type} (k : ℤ) :
    ∀ (leg : List (ScoredPoint P)) (rank : ℕ) (scores : List (String × ℚ))
      (payloads : List (String × P)),
      (∀ sp ∈ leg, dictGet scores sp.id = none) →
      (leg.map ScoredPoint.id).Nodup →
      (addLeg k leg rank scores payloads).1 = scores ++ legScores k leg rank := by
  intro leg
  induction leg with
  | nil => intro rank scores payloads _ _; simp [addLeg, legScores]
  | cons sp rest ih =>
    intro rank scores payloads hfresh hn
    rw [List.map_cons, List.nodup_cons] at hn
    obtain ⟨hnotin, hn'⟩ := hn
    have hsp : dictGet scores sp.id = none := hfresh sp (List.mem_cons_self _ _)
    rw [addLeg]
    have hval : dictGetD scores sp.id 0 + 1 / ((k : ℚ) + rank) = 1 / ((k : ℚ) + rank) := by
      rw [dictGetD, hsp]
      simp
    rw [hval, dictSet_fresh scores sp.id _ hsp]
    rw [ih (rank + 1) _ _ ?_ hn']
    · rw [List.append_assoc]
      rfl
    · intro sp' hsp'
      rw [dictGet_append_of_none _ _ _ (hfresh sp' (List.mem_cons_of_mem _ hsp'))]
      rw [dictGet]
      rw [if_neg]
      · rfl
      · intro he
        exact hnotin (he ▸ List.mem_map_of_mem ScoredPoint.id hsp')

theorem legScores_map_fst {P : Type} (k : ℤ) :
    ∀ (leg : List (ScoredPoint P)) (rank : ℕ),
      (legScores k leg rank).map Prod.fst = leg.map ScoredPoint.id := by
  intro leg
  induction leg with
  | nil => intro rank; rfl
  | cons sp rest ih => intro rank; rw [legScores, List.map_cons, List.map_cons, ih]

theorem legScores_mem_le {P : Type} {k : ℤ} (hk : 0 ≤ k) :
    ∀ (leg : List (ScoredPoint P)) (rank : ℕ), 1 ≤ rank →
      ∀ x ∈ legScores k leg rank, 0 < x.2 ∧ x.2 ≤ 1 / ((k : ℚ) + rank) := by
  intro leg
  induction leg with
  | nil => intro rank _ x hx; simp [legScores] at hx
  | cons sp rest ih =>
    intro rank hr x hx
    have hpos : (0 : ℚ) < (k : ℚ) + rank := by
      have h1 : (0 : ℚ) ≤ (k : ℚ) := by exact_mod_cast hk
      have h2 : (1 : ℚ) ≤ (rank : ℚ) := by exact_mod_cast hr
      linarith
    rw [legScores] at hx
    rcases List.mem_cons.mp hx with rfl | hx'
    · exact ⟨by positivity, le_refl _⟩
    · obtain ⟨h1, h2⟩ := ih (rank + 1) (by omega) x hx'
      refine ⟨h1, h2.trans ?_⟩
      apply one_div_le_one_div_of_le hpos
      push_cast
      linarith

theorem legScores_pairwise {P : Type} {k : ℤ} (hk : 0 ≤ k) :
    ∀ (leg : List (ScoredPoint P)) (rank : ℕ), 1 ≤ rank →
      (legScores k leg rank).Pairwise (fun a b => a.2 > b.2) := by
  intro leg
  induction leg with
  | nil => intro rank _; simp [legScores]
  | cons sp rest ih =>
    intro rank hr
    have hpos : (0 : ℚ) < (k : ℚ) + rank := by
      have h1 : (0 : ℚ) ≤ (k : ℚ) := by exact_mod_cast hk
      have h2 : (1 : ℚ) ≤ (rank : ℚ) := by exact_mod_cast hr
      linarith
    rw [legScores]
    refine List.Pairwise.cons ?_ (ih (rank + 1) (by omega))
    intro b hb
    obtain ⟨_, hb2⟩ := legScores_mem_le hk rest (rank + 1) (by omega) b hb
    refine lt_of_le_of_lt hb2 ?_
    apply one_div_lt_one_div_of_lt hpos
    push_cast
    linarith

/-- The fused score of every id is the sum of the two legs' reciprocal-rank
contributions (for legs with pairwise-distinct ids, as search results are). -/
theorem rrfScores_eq_contrib {P : Type} (k : ℤ) (dense keyword : List (ScoredPoint P))
    (pid : String) (hnd : (dense.map ScoredPoint.id).Nodup)
    (hnk : (keyword.map ScoredPoint.id).Nodup) :
    dictGetD (rrfScores dense keyword k) pid 0 = contrib k dense pid + contrib k keyword pid := by
  have hbase : dictGetD ([] : List (String × ℚ)) pid 0 = 0 := rfl
  have hd := addLeg_scores_getD k dense 1 [] [] pid hnd
  have hkk := addLeg_scores_getD k keyword 1 (addLeg k dense 1 [] []).1
    (addLeg k dense 1 [] []).2 pid hnk
  rw [rrfScores, hkk, hd, hbase, zero_add]
  have hleg : ∀ (leg : List (ScoredPoint P)),
      (match leg.findIdx? (fun sp => sp.id = pid) 1 with
       | some i => 1 / ((k : ℚ) + i)
       | none => 0) = contrib k leg pid := by
    intro leg
    rw [contrib]
    rw [show (1 : ℕ) = 0 + 1 from rfl, List.findIdx?_start_succ]
    cases h : leg.findIdx? (fun sp => sp.id = pid) 0 with
    | none => simp
    | some i => simp
  rw [hleg dense, hleg keyword]

/-- A point's entry is what `find?` by its id returns, when ids are
pairwise distinct. -/
theorem find?_id_eq_some {P : Type} {l : List (ScoredPoint P)} {sp : ScoredPoint P}
    {pid : String} (hn : (l.map ScoredPoint.id).Nodup) (hm : sp ∈ l) (hid : sp.id = pid) :
    l.find? (fun x => x.id = pid) = some sp := by
  induction l with
  | nil => simp at hm
  | cons h rest ih =>
    rw [List.map_cons, List.nodup_cons] at hn
    obtain ⟨hnotin, hn'⟩ := hn
    rcases List.mem_cons.mp hm with rfl | hm'
    · exact List.find?_cons_of_pos _ (by simp [hid])
    · have hne : ¬ h.id = pid := by
        intro he
        exact hnotin (he ▸ hid ▸ List.mem_map_of_mem ScoredPoint.id hm')
      rw [List.find?_cons_of_neg _ (by simp [hne])]
      exact ih hn' hm'

/-- The record order of the fused output is the id order of the sorted
score dict. -/
theorem rrf_fuse_map_fst {P : Type} (dense keyword : List (ScoredPoint P)) (k : ℤ) :
    (rrf_fuse dense keyword k).map (fun e => e.1) =
      (sortDesc (addLeg k keyword 1 (addLeg k dense 1 [] []).1
        (addLeg k dense 1 [] []).2).1).map Prod.fst := by
  rw [rrf_fuse, List.map_map]
  rfl

/-- C1 (counterexample): with the id `"A"` carrying payload
`"dense-payload"` in the dense leg and `"keyword-payload"` in the keyword
leg, the fused result carries the KEYWORD leg's payload, not the dense
leg's: `payloads[pid] = sp.payload` overwrites, and the keyword leg is
added after the dense leg. -/
theorem C1_counterexample :
    rrf_fuse (P := String)
        [{ id := "A", score := 1, payload := some "dense-payload" }]
        [{ id := "A", score := 1, payload := some "keyword-payload" }] 60
      = [("A", 2/61, some "keyword-payload")] ∧
    ("keyword-payload" : String) ≠ "dense-payload" := by
  constructor
  · simp [rrf_fuse, addLeg, dictSet, dictGet, dictGetD, sortDesc, insertDesc]
    norm_num
  · decide

/-- C1 (amended): when the same record id appears in both legs and both
carry a payload, the payload attached to the fused result is the payload
from the leg processed LAST, i.e. the keyword leg (its
`payloads[pid] = sp.payload` overwrites the dense leg's record), for every
pair of input legs with pairwise-distinct ids. -/
theorem C1_payload_from_keyword_leg {P : Type} (k : ℤ)
    (dense keyword : List (ScoredPoint P)) (pid : String) (pd pk : P)
    (spd spk : ScoredPoint P)
    (hnd : (dense.map ScoredPoint.id).Nodup) (hnk : (keyword.map ScoredPoint.id).Nodup)
    (hdm : spd ∈ dense) (hdid : spd.id = pid) (hdp : spd.payload = some pd)
    (hkm : spk ∈ keyword) (hkid : spk.id = pid) (hkp : spk.payload = some pk) :
    ∃ s, (pid, s, some pk) ∈ rrf_fuse dense keyword k := by
  have hpay : dictGet (addLeg k keyword 1 (addLeg k dense 1 [] []).1
      (addLeg k dense 1 [] []).2).2 pid = some pk := by
    rw [addLeg_payloads_get k keyword 1 _ _ pid hnk, find?_id_eq_some hnk hkm hkid]
    simp [hkp]
  have hsome : (dictGet (addLeg k keyword 1 (addLeg k dense 1 [] []).1
      (addLeg k dense 1 [] []).2).1 pid).isSome := by
    apply addLeg_scores_isSome
    exact Or.inr (hkid ▸ List.mem_map_of_mem ScoredPoint.id hkm)
  obtain ⟨s, hs⟩ := Option.isSome_iff_exists.mp hsome
  refine ⟨s, ?_⟩
  have hmem : (pid, s) ∈ sortDesc (addLeg k keyword 1 (addLeg k dense 1 [] []).1
      (addLeg k dense 1 [] []).2).1 :=
    ((sortDesc_perm _).mem_iff).mpr (dictGet_eq_some_mem hs)
  have := List.mem_map_of_mem (fun e : String × ℚ => (e.1, e.2, dictGet
    (addLeg k keyword 1 (addLeg k dense 1 [] []).1 (addLeg k dense 1 [] []).2).2 e.1)) hmem
  rw [rrf_fuse]
  simpa [hpay] using this

/-- C1 (witness): the amended payload rule at the counterexample input. -/
theorem C1_payload_from_keyword_leg_witness :
    ∃ s, ("A", s, some "keyword-payload") ∈ rrf_fuse (P := String)
        [{ id := "A", score := 1, payload := some "dense-payload" }]
        [{ id := "A", score := 1, payload := some "keyword-payload" }] 60 :=
  C1_payload_from_keyword_leg 60 _ _ "A" "dense-payload" "keyword-payload"
    { id := "A", score := 1, payload := some "dense-payload" }
    { id := "A", score := 1, payload := some "keyword-payload" }
    (by decide) (by decide) (by decide) rfl rfl (by decide) rfl rfl

/-- C4: with `k_rrf = 60`, record A at dense rank 1 and keyword rank 3 gets
fused score exactly `1/61 + 1/63`, record B at dense rank 2 and absent from
the keyword leg gets exactly `1/62`, and A is ordered above B in the fused
output; in general, for legs with pairwise-distinct ids, every id's fused
score is the sum over both legs of `1/(k_rrf + r)` for its 1-based rank `r`
in that leg, `0` from a leg it is absent from. -/
theorem C4_rrf_example_and_formula :
    (dictGetD (rrfScores exDense exKeyword 60) "A" 0 = 1/61 + 1/63 ∧
     dictGetD (rrfScores exDense exKeyword 60) "B" 0 = 1/62 ∧
     ((rrf_fuse exDense exKeyword 60).map (fun e => e.1)).indexOf "A"
       < ((rrf_fuse exDense exKeyword 60).map (fun e => e.1)).indexOf "B") ∧
    ∀ (P : Type) (k : ℤ) (dense keyword : List (ScoredPoint P)) (pid : String),
      (dense.map ScoredPoint.id).Nodup → (keyword.map ScoredPoint.id).Nodup →
      dictGetD (rrfScores dense keyword k) pid 0 =
        contrib k dense pid + contrib k keyword pid := by
  have hscores : (addLeg 60 exKeyword 1 (addLeg 60 exDense 1 [] []).1
      (addLeg 60 exDense 1 [] []).2).1
      = [("A", 124/3843), ("B", 1/62), ("C", 1/61), ("D", 1/62)] := by
    simp [exDense, exKeyword, addLeg, dictSet, dictGet, dictGetD]
    norm_num
  have horder : (rrf_fuse exDense exKeyword 60).map (fun e => e.1)
      = ["A", "C", "B", "D"] := by
    rw [rrf_fuse_map_fst, hscores]
    norm_num [sortDesc, insertDesc]
  refine ⟨⟨?_, ?_, ?_⟩, ?_⟩
  · rw [rrfScores, hscores]
    norm_num [dictGetD, dictGet]
  · rw [rrfScores, hscores]
    simp [dictGetD, dictGet]
  · rw [horder]
    decide
  · intro P k dense keyword pid hnd hnk
    exact rrfScores_eq_contrib k dense keyword pid hnd hnk

/-- C4 (witness): the general formula at a concrete input. -/
theorem C4_rrf_example_and_formula_witness :
    dictGetD (rrfScores (P := Unit)
        [{ id := "X", score := 1, payload := none }]
        [{ id := "Y", score := 1, payload := none }, { id := "X", score := 1, payload := none }]
        60) "X" 0 =
      contrib 60 [{ id := "X", score := (1 : ℚ), payload := (none : Option Unit) }] "X" +
      contrib 60 [{ id := "Y", score := (1 : ℚ), payload := (none : Option Unit) },
        { id := "X", score := 1, payload := none }] "X" :=
  C4_rrf_example_and_formula.2 Unit 60 _ _ "X" (by decide) (by decide)

/-- C5: for fixed `k_rrf ≥ 0` and legs with pairwise-distinct ids, a record
ranked strictly better (smaller 1-based rank, i.e. smaller 0-based index) in
BOTH legs than another record fuses to a strictly higher score. -/
theorem C5_rrf_monotone {P : Type} (k : ℤ) (dense keyword : List (ScoredPoint P))
    (X Y : String) (iXd iYd iXk iYk : ℕ) (hk : 0 ≤ k)
    (hnd : (dense.map ScoredPoint.id).Nodup) (hnk : (keyword.map ScoredPoint.id).Nodup)
    (hXd : dense.findIdx? (fun sp => sp.id = X) = some iXd)
    (hYd : dense.findIdx? (fun sp => sp.id = Y) = some iYd)
    (hXk : keyword.findIdx? (fun sp => sp.id = X) = some iXk)
    (hYk : keyword.findIdx? (fun sp => sp.id = Y) = some iYk)
    (hdlt : iXd < iYd) (hklt : iXk < iYk) :
    dictGetD (rrfScores dense keyword k) Y 0 < dictGetD (rrfScores dense keyword k) X 0 := by
  rw [rrfScores_eq_contrib k dense keyword Y hnd hnk,
    rrfScores_eq_contrib k dense keyword X hnd hnk]
  rw [contrib, contrib, contrib, contrib, hXd, hYd, hXk, hYk]
  have hk' : (0 : ℚ) ≤ (k : ℚ) := by exact_mod_cast hk
  have h1 : (0 : ℚ) < (k : ℚ) + (iXd + 1 : ℕ) := by push_cast; linarith
  have h2 : (0 : ℚ) < (k : ℚ) + (iXk + 1 : ℕ) := by push_cast; linarith
  have hd1 : ((k : ℚ) + (iXd + 1 : ℕ)) < ((k : ℚ) + (iYd + 1 : ℕ)) := by
    push_cast
    have : (iXd : ℚ) < iYd := by exact_mod_cast hdlt
    linarith
  have hd2 : ((k : ℚ) + (iXk + 1 : ℕ)) < ((k : ℚ) + (iYk + 1 : ℕ)) := by
    push_cast
    have : (iXk : ℚ) < iYk := by exact_mod_cast hklt
    linarith
  exact add_lt_add (one_div_lt_one_div_of_lt h1 hd1) (one_div_lt_one_div_of_lt h2 hd2)

/-- C5 (witness): monotonicity at a concrete input. -/
theorem C5_rrf_monotone_witness :
    dictGetD (rrfScores (P := Unit)
      [{ id := "X", score := 1, payload := none }, { id := "Y", score := 1, payload := none }]
      [{ id := "X", score := 1, payload := none }, { id := "Y", score := 1, payload := none }]
      60) "Y" 0 <
    dictGetD (rrfScores (P := Unit)
      [{ id := "X", score := 1, payload := none }, { id := "Y", score := 1, payload := none }]
      [{ id := "X", score := 1, payload := none }, { id := "Y", score := 1, payload := none }]
      60) "X" 0 :=
  C5_rrf_monotone 60 _ _ "X" "Y" 0 1 0 1 (by decide) (by decide) (by decide)
    (by decide) (by decide) (by decide) (by decide) (by decide) (by decide)

/-- C6: when exactly one leg is empty (e.g. the lexical leg on a query with
no tokens), the fused output's record order equals the non-empty leg's
order exactly, for `k_rrf ≥ 0` and a leg with pairwise-distinct ids. -/
theorem C6_one_empty_leg :
    (∀ (P : Type) (k : ℤ) (dense : List (ScoredPoint P)), 0 ≤ k →
      (dense.map ScoredPoint.id).Nodup →
      (rrf_fuse dense [] k).map (fun e => e.1) = dense.map ScoredPoint.id) ∧
    (∀ (P : Type) (k : ℤ) (keyword : List (ScoredPoint P)), 0 ≤ k →
      (keyword.map ScoredPoint.id).Nodup →
      (rrf_fuse [] keyword k).map (fun e => e.1) = keyword.map ScoredPoint.id) := by
  have key : ∀ (P : Type) (k : ℤ) (leg : List (ScoredPoint P)), 0 ≤ k →
      (leg.map ScoredPoint.id).Nodup →
      ∀ payloads, ((sortDesc (addLeg k leg 1 [] payloads).1).map Prod.fst)
        = leg.map ScoredPoint.id := by
    intro P k leg hk hn payloads
    rw [addLeg_fresh k leg 1 [] payloads (fun _ _ => rfl) hn, List.nil_append]
    rw [sortDesc_eq_self (legScores_pairwise hk leg 1 (le_refl 1))]
    exact legScores_map_fst k leg 1
  constructor
  · intro P k dense hk hn
    rw [rrf_fuse_map_fst]
    exact key P k dense hk hn []
  · intro P k keyword hk hn
    rw [rrf_fuse_map_fst]
    exact key P k keyword hk hn []

/-- C6 (witness): a two-point dense leg against an empty keyword leg. -/
theorem C6_one_empty_leg_witness :
    (rrf_fuse (P := Unit)
      [{ id := "A", score := 1, payload := none }, { id := "B", score := 1, payload := none }]
      [] 60).map (fun e => e.1) =
      ([{ id := "A", score := 1, payload := none },
        { id := "B", score := 1, payload := none }] :
          List (ScoredPoint Unit)).map ScoredPoint.id :=
  C6_one_empty_leg.1 Unit 60 _ (by decide) (by decide)

/-! ## Lemmas about the line windowing -/

theorem chunkFromAux_cons {lines : List String} {L O fuel start : ℕ}
    (hf : lines.length - start ≤ fuel) (hs : start < lines.length) :
    ∃ txt tail, chunkFromAux lines L O fuel start
      = (start + 1, min lines.length (start + L), txt) :: tail := by
  cases fuel with
  | zero => omega
  | succ fuel =>
    rw [chunkFromAux, if_pos hs]
    by_cases he : min lines.length (start + L) = lines.length
    · rw [if_pos he]
      exact ⟨_, [], rfl⟩
    · rw [if_neg he]
      exact ⟨_, _, rfl⟩

/-- Coverage: the windows from `start` cover exactly the 1-based line range
`[start+1, n]`. -/
theorem chunkFromAux_cover {lines : List String} {L O : ℕ} (hL : 1 ≤ L) :
    ∀ (fuel start : ℕ), lines.length - start ≤ fuel → start < lines.length →
      ∀ m, (start + 1 ≤ m ∧ m ≤ lines.length) ↔
        ∃ c ∈ chunkFromAux lines L O fuel start, c.1 ≤ m ∧ m ≤ c.2.1 := by
  intro fuel
  induction fuel with
  | zero => intro start hf hs; omega
  | succ fuel ih =>
    intro start hf hs m
    rw [chunkFromAux, if_pos hs]
    by_cases he : min lines.length (start + L) = lines.length
    · rw [if_pos he]
      constructor
      · intro ⟨h1, h2⟩
        exact ⟨_, List.mem_singleton.mpr rfl, by simpa using And.intro h1 (by omega)⟩
      · rintro ⟨c, hc, h1, h2⟩
        rw [List.mem_singleton] at hc
        subst hc
        simp only at h1 h2
        omega
    · rw [if_neg he]
      have hstep : 1 ≤ max 1 (L - O) := Nat.le_max_left _ _
      have hstep2 : max 1 (L - O) ≤ L := by omega
      have he2 : min lines.length (start + L) = start + L := by omega
      have hs' : start + max 1 (L - O) < lines.length := by omega
      have hf' : lines.length - (start + max 1 (L - O)) ≤ fuel := by omega
      have ihm := ih (start + max 1 (L - O)) hf' hs'
      constructor
      · intro ⟨h1, h2⟩
        by_cases hm : m ≤ start + L
        · exact ⟨_, List.mem_cons_self _ _, by simpa using And.intro h1 (by omega)⟩
        · obtain ⟨c, hc, hc1, hc2⟩ := (ihm m).mp (by omega)
          exact ⟨c, List.mem_cons_of_mem _ hc, hc1, hc2⟩
      · rintro ⟨c, hc, h1, h2⟩
        rcases List.mem_cons.mp hc with rfl | hc'
        · simp only at h1 h2
          omega
        · have := (ihm m).mpr ⟨c, hc', h1, h2⟩
          omega

/-- The last window emitted from `start` ends at the last line. -/
theorem chunkFromAux_last {lines : List String} {L O : ℕ} (hL : 1 ≤ L) :
    ∀ (fuel start : ℕ), lines.length - start ≤ fuel → start < lines.length →
      ((chunkFromAux lines L O fuel start).getLast?).map (fun c => c.2.1)
        = some lines.length := by
  intro fuel
  induction fuel with
  | zero => intro start hf hs; omega
  | succ fuel ih =>
    intro start hf hs
    rw [chunkFromAux, if_pos hs]
    by_cases he : min lines.length (start + L) = lines.length
    · rw [if_pos he]
      simp [he]
    · rw [if_neg he]
      have hstep : 1 ≤ max 1 (L - O) := Nat.le_max_left _ _
      have hstep2 : max 1 (L - O) ≤ L := by omega
      have he2 : min lines.length (start + L) = start + L := by omega
      have hs' : start + max 1 (L - O) < lines.length := by omega
      have hf' : lines.length - (start + max 1 (L - O)) ≤ fuel := by omega
      have htail := ih (start + max 1 (L - O)) hf' hs'
      obtain ⟨txt, tail, heq⟩ := chunkFromAux_cons (L := L) (O := O) hf' hs'
      rw [heq] at htail ⊢
      rw [List.getLast?_cons_cons]
      exact htail

/-- Every pair of consecutive windows shares exactly `O` lines
(when `O < L`). -/
theorem chunkFromAux_chain {lines : List String} {L O : ℕ} (hO : O < L) :
    ∀ (fuel start : ℕ), lines.length - start ≤ fuel →
      (chunkFromAux lines L O fuel start).Chain'
        (fun c c' => sharedLines (c.1, c.2.1) (c'.1, c'.2.1) = O) := by
  intro fuel
  induction fuel with
  | zero => intro start hf; simp [chunkFromAux]
  | succ fuel ih =>
    intro start hf
    rw [chunkFromAux]
    by_cases hs : start < lines.length
    · rw [if_pos hs]
      by_cases he : min lines.length (start + L) = lines.length
      · rw [if_pos he]
        simp
      · rw [if_neg he]
        have hstep : 1 ≤ max 1 (L - O) := Nat.le_max_left _ _
        have hstepO : max 1 (L - O) = L - O := by omega
        have he2 : min lines.length (start + L) = start + L := by omega
        have hlen : start + L < lines.length := by omega
        have hs' : start + max 1 (L - O) < lines.length := by omega
        have hf' : lines.length - (start + max 1 (L - O)) ≤ fuel := by omega
        rw [List.chain'_cons']
        constructor
        · intro y hy
          obtain ⟨txt, tail, heq⟩ := chunkFromAux_cons (L := L) (O := O) hf' hs'
          rw [heq] at hy
          simp only [List.head?_cons, Option.mem_def, Option.some.injEq] at hy
          subst hy
          simp only [sharedLines, he2]
          have hmin : min lines.length (start + max 1 (L - O) + L)
              ≥ start + L + 1 := by omega
          omega
        · exact ih (start + max 1 (L - O)) hf'
    · rw [if_neg hs]
      simp

/-- C7: for a non-empty line list, window length `L ≥ 1` and overlap
`O < L`, the 1-based inclusive windows of `chunk_by_lines` union to exactly
`[1, N]` with no gaps, the last window ends at line `N`, and each pair of
consecutive windows shares exactly `O` lines (the final window may merely be
shorter than `L`). -/
theorem C7_window_tiling (lines : List String) (L O : ℕ)
    (hne : lines ≠ []) (hL : 1 ≤ L) (hO : O < L) :
    (∀ m, (1 ≤ m ∧ m ≤ lines.length) ↔
      ∃ c ∈ chunk_by_lines lines L O, c.1 ≤ m ∧ m ≤ c.2.1) ∧
    ((chunk_by_lines lines L O).getLast?).map (fun c => c.2.1) = some lines.length ∧
    (chunk_by_lines lines L O).Chain'
      (fun c c' => sharedLines (c.1, c.2.1) (c'.1, c'.2.1) = O) := by
  have hpos : 0 < lines.length := List.length_pos.mpr hne
  refine ⟨?_, ?_, ?_⟩
  · intro m
    simpa using chunkFromAux_cover hL (lines.length - 0) 0 (le_refl _) hpos m
  · exact chunkFromAux_last hL (lines.length - 0) 0 (le_refl _) hpos
  · exact chunkFromAux_chain hO (lines.length - 0) 0 (le_refl _)

/-- C7 (witness): five lines, window length 3, overlap 1 — windows
`[1,3]`, `[3,5]`. -/
theorem C7_window_tiling_witness :
    ((["l1", "l2", "l3", "l4", "l5"] : List String) ≠ [] ∧ 1 ≤ 3 ∧ 1 < 3) ∧
    ((∀ m, (1 ≤ m ∧ m ≤ (["l1", "l2", "l3", "l4", "l5"] : List String).length) ↔
      ∃ c ∈ chunk_by_lines ["l1", "l2", "l3", "l4", "l5"] 3 1, c.1 ≤ m ∧ m ≤ c.2.1) ∧
    ((chunk_by_lines ["l1", "l2", "l3", "l4", "l5"] 3 1).getLast?).map (fun c => c.2.1)
      = some (["l1", "l2", "l3", "l4", "l5"] : List String).length ∧
    (chunk_by_lines ["l1", "l2", "l3", "l4", "l5"] 3 1).Chain'
      (fun c c' => sharedLines (c.1, c.2.1) (c'.1, c'.2.1) = 1)) :=
  ⟨⟨by decide, by decide, by decide⟩,
    C7_window_tiling ["l1", "l2", "l3", "l4", "l5"] 3 1 (by decide) (by decide) (by decide)⟩

/-! ## Lemmas about the stable point identifier -/

theorem digitChar_inj : ∀ d₁ < 10, ∀ d₂ < 10, digitChar d₁ = digitChar d₂ → d₁ = d₂ := by
  decide

theorem natDigitsRevAux_irrel :
    ∀ (f1 f2 n : ℕ), n < f1 → n < f2 → natDigitsRevAux f1 n = natDigitsRevAux f2 n := by
  intro f1
  induction f1 with
  | zero => intro f2 n h1 _; omega
  | succ f1 ih =>
    intro f2 n h1 h2
    cases f2 with
    | zero => omega
    | succ f2 =>
      rw [natDigitsRevAux, natDigitsRevAux]
      by_cases hn : n < 10
      · rw [if_pos hn, if_pos hn]
      · rw [if_neg hn, if_neg hn]
        have hdiv : n / 10 < n := Nat.div_lt_self (by omega) (by omega)
        rw [ih f2 (n / 10) (by omega) (by omega)]

theorem natDigitsRev_eq (n : ℕ) :
    natDigitsRev n =
      if n < 10 then [digitChar n] else digitChar (n % 10) :: natDigitsRev (n / 10) := by
  rw [natDigitsRev, natDigitsRevAux]
  by_cases hn : n < 10
  · rw [if_pos hn, if_pos hn]
  · rw [if_neg hn, if_neg hn]
    have hdiv : n / 10 < n := Nat.div_lt_self (by omega) (by omega)
    rw [natDigitsRevAux_irrel n (n / 10 + 1) (n / 10) (by omega) (by omega)]
    rfl

theorem natDigitsRev_ne_nil (n : ℕ) : natDigitsRev n ≠ [] := by
  rw [natDigitsRev_eq]
  by_cases hn : n < 10
  · rw [if_pos hn]; simp
  · rw [if_neg hn]; simp

theorem natDigitsRev_inj : ∀ (a b : ℕ), natDigitsRev a = natDigitsRev b → a = b := by
  intro a
  induction a using Nat.strong_induction_on with
  | _ a ih =>
    intro b h
    rw [natDigitsRev_eq a, natDigitsRev_eq b] at h
    by_cases ha : a < 10 <;> by_cases hb : b < 10
    · rw [if_pos ha, if_pos hb] at h
      exact digitChar_inj a ha b hb (by simpa using h)
    · rw [if_pos ha, if_neg hb] at h
      have := congrArg List.length h
      simp at this
      exact absurd this.symm (by simpa using natDigitsRev_ne_nil (b / 10))
    · rw [if_neg ha, if_pos hb] at h
      have := congrArg List.length h
      simp at this
      exact absurd this (by simpa using natDigitsRev_ne_nil (a / 10))
    · rw [if_neg ha, if_neg hb] at h
      obtain ⟨hhead, htail⟩ := List.cons.inj h
      have hmod : a % 10 = b % 10 :=
        digitChar_inj _ (Nat.mod_lt _ (by omega)) _ (Nat.mod_lt _ (by omega)) hhead
      have hdivlt : a / 10 < a := Nat.div_lt_self (by omega) (by omega)
      have hdiv : a / 10 = b / 10 := ih (a / 10) hdivlt (b / 10) htail
      omega

theorem natToString_inj {a b : ℕ} (h : natToString a = natToString b) : a = b := by
  rw [natToString, natToString] at h
  have hdata : (natDigitsRev a).reverse = (natDigitsRev b).reverse := congrArg String.data h
  exact natDigitsRev_inj a b (List.reverse_injective hdata)

theorem str_cancel_left {a b c : String} (h : a ++ b = a ++ c) : b = c := by
  have hd : a.data ++ b.data = a.data ++ c.data := by
    have := congrArg String.data h
    simpa [String.data_append] using this
  exact String.ext (List.append_cancel_left hd)

theorem str_cancel_right {a b c : String} (h : a ++ c = b ++ c) : a = b := by
  have hd : a.data ++ c.data = b.data ++ c.data := by
    have := congrArg String.data h
    simpa [String.data_append] using this
  exact String.ext (List.append_cancel_right hd)

/-- C8: the record-identifier derivation is a pure function of the composite
key `(file, type, symbol, name, start_line, end_line)` — identical field
values give byte-identical keys, and changing any single field while holding
the other five fixed changes the key. -/
theorem C8_stable_id :
    (∀ (f f' : String) (i i' : Item), f = f' → i.type = i'.type → i.symbol = i'.symbol →
      i.name = i'.name → i.start_line = i'.start_line → i.end_line = i'.end_line →
      stable_point_key f i = stable_point_key f' i') ∧
    (∀ (f f' : String) (i : Item), f ≠ f' →
      stable_point_key f i ≠ stable_point_key f' i) ∧
    (∀ (f : String) (i i' : Item), i.symbol = i'.symbol → i.name = i'.name →
      i.start_line = i'.start_line → i.end_line = i'.end_line → i.type ≠ i'.type →
      stable_point_key f i ≠ stable_point_key f i') ∧
    (∀ (f : String) (i i' : Item), i.type = i'.type → i.name = i'.name →
      i.start_line = i'.start_line → i.end_line = i'.end_line → i.symbol ≠ i'.symbol →
      stable_point_key f i ≠ stable_point_key f i') ∧
    (∀ (f : String) (i i' : Item), i.type = i'.type → i.symbol = i'.symbol →
      i.start_line = i'.start_line → i.end_line = i'.end_line → i.name ≠ i'.name →
      stable_point_key f i ≠ stable_point_key f i') ∧
    (∀ (f : String) (i i' : Item), i.type = i'.type → i.symbol = i'.symbol →
      i.name = i'.name → i.end_line = i'.end_line → i.start_line ≠ i'.start_line →
      stable_point_key f i ≠ stable_point_key f i') ∧
    (∀ (f : String) (i i' : Item), i.type = i'.type → i.symbol = i'.symbol →
      i.name = i'.name → i.start_line = i'.start_line → i.end_line ≠ i'.end_line →
      stable_point_key f i ≠ stable_point_key f i') := by
  refine ⟨?_, ?_, ?_, ?_, ?_, ?_, ?_⟩
  · intro f f' i i' h1 h2 h3 h4 h5 h6
    rw [stable_point_key, stable_point_key, h1, h2, h3, h4, h5, h6]
  · intro f f' i hne h
    apply hne
    have hd := congrArg String.data h
    simp only [stable_point_key, String.data_append, List.append_assoc] at hd
    exact String.ext (List.append_cancel_right hd)
  · intro f i i' h2 h3 h4 h5 hne h
    apply hne
    rw [stable_point_key, stable_point_key, h2, h3, h4, h5] at h
    have hd := congrArg String.data h
    simp only [String.data_append, List.append_assoc] at hd
    replace hd := List.append_cancel_left hd
    replace hd := List.append_cancel_left hd
    exact String.ext (List.append_cancel_right hd)
  · intro f i i' h1 h3 h4 h5 hne h
    apply hne
    rw [stable_point_key, stable_point_key, h1, h3, h4, h5] at h
    have hd := congrArg String.data h
    simp only [String.data_append, List.append_assoc] at hd
    replace hd := List.append_cancel_left hd
    replace hd := List.append_cancel_left hd
    replace hd := List.append_cancel_left hd
    replace hd := List.append_cancel_left hd
    exact String.ext (List.append_cancel_right hd)
  · intro f i i' h1 h2 h4 h5 hne h
    apply hne
    rw [stable_point_key, stable_point_key, h1, h2, h4, h5] at h
    have hd := congrArg String.data h
    simp only [String.data_append, List.append_assoc] at hd
    replace hd := List.append_cancel_left hd
    replace hd := List.append_cancel_left hd
    replace hd := List.append_cancel_left hd
    replace hd := List.append_cancel_left hd
    replace hd := List.append_cancel_left hd
    replace hd := List.append_cancel_left hd
    exact String.ext (List.append_cancel_right hd)
  · intro f i i' h1 h2 h3 h5 hne h
    apply hne
    rw [stable_point_key, stable_point_key, h1, h2, h3, h5] at h
    have hd := congrArg String.data h
    simp only [String.data_append, List.append_assoc] at hd
    replace hd := List.append_cancel_left hd
    replace hd := List.append_cancel_left hd
    replace hd := List.append_cancel_left hd
    replace hd := List.append_cancel_left hd
    replace hd := List.append_cancel_left hd
    replace hd := List.append_cancel_left hd
    replace hd := List.append_cancel_left hd
    replace hd := List.append_cancel_left hd
    exact natToString_inj (String.ext (List.append_cancel_right hd))
  · intro f i i' h1 h2 h3 h4 hne h
    apply hne
    rw [stable_point_key, stable_point_key, h1, h2, h3, h4] at h
    have hd := congrArg String.data h
    simp only [String.data_append, List.append_assoc] at hd
    replace hd := List.append_cancel_left hd
    replace hd := List.append_cancel_left hd
    replace hd := List.append_cancel_left hd
    replace hd := List.append_cancel_left hd
    replace hd := List.append_cancel_left hd
    replace hd := List.append_cancel_left hd
    replace hd := List.append_cancel_left hd
    replace hd := List.append_cancel_left hd
    replace hd := List.append_cancel_left hd
    replace hd := List.append_cancel_left hd
    exact natToString_inj (String.ext hd)

/-- C8 (witness): determinism and file-sensitivity at concrete items. -/
theorem C8_stable_id_witness :
    (("a.py" : String) ≠ "b.py") ∧
      stable_point_key "a.py"
          { type := "Function", name := "a.py::f", symbol := "f", start_line := 1,
            end_line := 4, docstring := "", code := "def f(): pass",
            preceding_comments := [], language := "python" }
        ≠ stable_point_key "b.py"
          { type := "Function", name := "a.py::f", symbol := "f", start_line := 1,
            end_line := 4, docstring := "", code := "def f(): pass",
            preceding_comments := [], language := "python" } :=
  ⟨by decide, C8_stable_id.2.1 "a.py" "b.py" _ (by decide)⟩

/-! ## Lemmas about the extraction run -/

/-- The `parsed` mapping built by `run` has one entry per input file, in
order, holding exactly the per-file processing result. -/
theorem runFiles_parsed : ∀ (files : List (String × FileInput)),
    (runFiles files).1 = files.map (fun p => (p.1, processFile p.1 p.2)) := by
  intro files
  induction files with
  | nil => rfl
  | cons hd rest ih =>
    obtain ⟨fp, inp⟩ := hd
    rw [runFiles]
    cases inp with
    | unreadable => simp [ih]
    | readable lines outcome =>
      cases he : (processFile fp (FileInput.readable lines outcome)).syntax_error with
      | some m => simp [he, ih]
      | none => simp [he, ih]

/-- Every readable file whose parse outcome is an error contributes its
(file, message) pair to the collected `syntax_errors`. -/
theorem runFiles_errs_mem : ∀ (files : List (String × FileInput)) (fp : String)
    (lines : List String) (msg : String),
    (fp, FileInput.readable lines (Except.error msg)) ∈ files →
    (fp, msg) ∈ (runFiles files).2 := by
  intro files
  induction files with
  | nil => intro fp lines msg h; simp at h
  | cons hd rest ih =>
    intro fp lines msg h
    obtain ⟨fp', inp'⟩ := hd
    rw [runFiles]
    rcases List.mem_cons.mp h with heq | hmem
    · obtain ⟨rfl, rfl⟩ := Prod.mk.inj heq
      simp [processFile, CodeParser_parse]
    · cases inp' with
      | unreadable => simpa using ih fp lines msg hmem
      | readable lines' outcome' =>
        cases he : (processFile fp' (FileInput.readable lines' outcome')).syntax_error with
        | some m => simp only [he]; exact List.mem_cons_of_mem _ (ih fp lines msg hmem)
        | none => simpa [he] using ih fp lines msg hmem

/-- C9: a file whose syntactic parse fails yields an empty syntactic-unit
list plus the recorded parse-error message (no exception), the (file,
message) pair lands in the collected `syntax_errors`, every other file is
still processed (the `parsed` mapping has one entry per input file), and the
windowing pass still runs for the failed file, producing its chunks. -/
theorem C9_parse_failure_graceful (files : List (String × FileInput))
    (fp : String) (lines : List String) (msg : String)
    (h : (fp, FileInput.readable lines (Except.error msg)) ∈ files) :
    (runFiles files).1 = files.map (fun p => (p.1, processFile p.1 p.2)) ∧
    (processFile fp (FileInput.readable lines (Except.error msg))).ast_items = [] ∧
    (processFile fp (FileInput.readable lines (Except.error msg))).syntax_error = some msg ∧
    (processFile fp (FileInput.readable lines (Except.error msg))).file_chunks
      = (chunk_by_lines lines CHUNK_LINES CHUNK_OVERLAP).map (mkFileChunk fp) ∧
    (fp, msg) ∈ (runFiles files).2 := by
  refine ⟨runFiles_parsed files, rfl, rfl, rfl, runFiles_errs_mem files fp lines msg h⟩

/-- C9 (witness): one failing file among two; the other file is processed
and the failing file still gets its window chunk. -/
theorem C9_parse_failure_graceful_witness :
    ((("bad.py", FileInput.readable ["def f(:"] (Except.error "SyntaxError: invalid syntax"))
        ∈ [("bad.py", FileInput.readable ["def f(:"] (Except.error "SyntaxError: invalid syntax")),
           ("good.py", FileInput.readable ["x = 1"]
             (Except.ok { items := [], imports := [], global_variables := ["x"] }))])) ∧
    ((runFiles [("bad.py", FileInput.readable ["def f(:"]
        (Except.error "SyntaxError: invalid syntax")),
      ("good.py", FileInput.readable ["x = 1"]
        (Except.ok { items := [], imports := [], global_variables := ["x"] }))]).1
      = [("bad.py", FileInput.readable ["def f(:"]
            (Except.error "SyntaxError: invalid syntax")),
         ("good.py", FileInput.readable ["x = 1"]
            (Except.ok { items := [], imports := [], global_variables := ["x"] }))].map
          (fun p => (p.1, processFile p.1 p.2)) ∧
     (processFile "bad.py" (FileInput.readable ["def f(:"]
        (Except.error "SyntaxError: invalid syntax"))).ast_items = [] ∧
     (processFile "bad.py" (FileInput.readable ["def f(:"]
        (Except.error "SyntaxError: invalid syntax"))).syntax_error
        = some "SyntaxError: invalid syntax" ∧
     (processFile "bad.py" (FileInput.readable ["def f(:"]
        (Except.error "SyntaxError: invalid syntax"))).file_chunks
        = (chunk_by_lines ["def f(:"] CHUNK_LINES CHUNK_OVERLAP).map (mkFileChunk "bad.py") ∧
     ("bad.py", "SyntaxError: invalid syntax") ∈ (runFiles
        [("bad.py", FileInput.readable ["def f(:"]
            (Except.error "SyntaxError: invalid syntax")),
         ("good.py", FileInput.readable ["x = 1"]
            (Except.ok { items := [], imports := [], global_variables := ["x"] }))]).2) :=
  ⟨List.mem_cons_self _ _,
    C9_parse_failure_graceful _ "bad.py" ["def f(:"] "SyntaxError: invalid syntax"
      (List.mem_cons_self _ _)⟩

/-! ## Lemmas about ingestion -/

theorem dropWhile_head_not {p : Char → Bool} :
    ∀ (l : List Char) (a : Char), (l.dropWhile p).head? = some a → ¬ p a = true := by
  intro l
  induction l with
  | nil => intro a h; simp at h
  | cons c rest ih =>
    intro a h
    by_cases hc : p c
    · rw [List.dropWhile_cons_of_pos hc] at h
      exact ih a h
    · rw [List.dropWhile_cons_of_neg hc] at h
      simp only [List.head?_cons, Option.some.injEq] at h
      exact h ▸ hc

theorem dropWhile_idem {p : Char → Bool} (l : List Char) :
    (l.dropWhile p).dropWhile p = l.dropWhile p := by
  cases hd : l.dropWhile p with
  | nil => rfl
  | cons x xs =>
    have hx : ¬ p x = true := dropWhile_head_not l x (by rw [hd]; rfl)
    rw [List.dropWhile_cons_of_neg hx]

theorem stripChars_idem (p : Char → Bool) (d : List Char) :
    ((((((d.dropWhile p).reverse.dropWhile p).reverse).dropWhile p).reverse).dropWhile p).reverse
      = ((d.dropWhile p).reverse.dropWhile p).reverse := by
  obtain ⟨w, hw⟩ : (d.dropWhile p).reverse.dropWhile p <:+ (d.dropWhile p).reverse :=
    List.dropWhile_suffix p
  have h1 : (((d.dropWhile p).reverse.dropWhile p).reverse).dropWhile p
      = ((d.dropWhile p).reverse.dropWhile p).reverse := by
    cases ht : ((d.dropWhile p).reverse.dropWhile p).reverse with
    | nil => rfl
    | cons x xs =>
      have h2 : (w ++ (d.dropWhile p).reverse.dropWhile p).reverse = d.dropWhile p := by
        rw [hw, List.reverse_reverse]
      have hr : d.dropWhile p = x :: (xs ++ w.reverse) := by
        rw [← h2, List.reverse_append, ht, List.cons_append]
      have hx : ¬ p x = true := by
        apply dropWhile_head_not (p := p) d
        rw [hr]
        rfl
      rw [List.dropWhile_cons_of_neg hx]
  rw [h1, List.reverse_reverse, dropWhile_idem]

/-- Python `strip` is idempotent. -/
theorem pyStrip_idem (s : String) : pyStrip (pyStrip s) = pyStrip s := by
  rw [pyStrip, pyStrip]
  exact congrArg String.mk (stripChars_idem isPySpace s.data)

/-- C10: every point built by `run_ingest` carries a non-empty,
already-stripped `code` payload field, and an item whose code text is empty
or whitespace-only yields no point at all. -/
theorem C10_nonblank_code (V : Type) (embed : String → V) (repo_root : String)
    (parsed : List (String × FileEntry)) :
    (∀ pt ∈ build_points embed repo_root parsed,
      pt.payload.code ≠ "" ∧ pyStrip pt.payload.code = pt.payload.code) ∧
    (∀ (fp : String) (item : Item), pyStrip item.code = "" →
      itemPoint embed repo_root fp item = none) := by
  constructor
  · intro pt hpt
    rw [build_points, List.mem_flatMap] at hpt
    obtain ⟨fe, _, hmem⟩ := hpt
    rw [List.mem_filterMap] at hmem
    obtain ⟨item, _, hsome⟩ := hmem
    rw [itemPoint] at hsome
    by_cases hc : pyStrip item.code = ""
    · rw [if_pos hc] at hsome
      exact absurd hsome (by simp)
    · rw [if_neg hc] at hsome
      have hpt' := (Option.some.inj hsome).symm
      subst hpt'
      exact ⟨hc, pyStrip_idem item.code⟩
  · intro fp item h
    rw [itemPoint, if_pos h]

/-- C10 (witness): a whitespace-only item is skipped. -/
theorem C10_nonblank_code_witness :
    pyStrip "  \n\t " = "" ∧
      itemPoint (fun _ => ()) "" "f.py"
        { type := "FileChunk", name := "f.py::chunk_1_1", symbol := "", start_line := 1,
          end_line := 1, docstring := "", code := "  \n\t ", preceding_comments := [],
          language := "python" } = none :=
  ⟨by decide,
    (C10_nonblank_code Unit (fun _ => ()) "" []).2 "f.py"
      { type := "FileChunk", name := "f.py::chunk_1_1", symbol := "", start_line := 1,
        end_line := 1, docstring := "", code := "  \n\t ", preceding_comments := [],
        language := "python" } (by decide)⟩

end QodeVault

